import Mathlib

/-
  A verification development for the loka-translator automation tool
  (Go, single `main.go`).  The definitions below are shallow embeddings of
  the pure parts of the program: the Gemini-response sanitizer and JSON
  extraction step (`sanitizeJSON` / `translateWithGemini`), the
  envelope-unwrapping step, the work-list file rewrite
  (`removeURLFromFile` / `readProjects`), and the scroll-and-collect row
  discovery loop (`scrollAndCollect`).  Strings are modelled at the rune
  (Lean `Char`) level; on valid UTF-8 input the Go byte-level operations
  used by the program (`strings.Index` on ASCII needles, slicing at ASCII
  byte positions, prefix/suffix trimming with ASCII affixes) agree with
  the rune-level definitions given here.
-/

/-! ### Go `strings.TrimSpace` (unicode.IsSpace at the rune level) -/

/-- The runes Go's `unicode.IsSpace` accepts: Latin-1 whitespace plus the
    Unicode `White_Space` property outside Latin-1. -/
def goIsSpace (c : Char) : Bool :=
  let n := c.toNat
  (decide (9 ≤ n) && decide (n ≤ 13)) || decide (n = 32) || decide (n = 0x85) ||
  decide (n = 0xA0) || decide (n = 0x1680) ||
  (decide (0x2000 ≤ n) && decide (n ≤ 0x200A)) ||
  decide (n = 0x2028) || decide (n = 0x2029) || decide (n = 0x202F) ||
  decide (n = 0x205F) || decide (n = 0x3000)

/-- Model of `strings.TrimSpace` on a rune list: drop leading and trailing whitespace. -/
def trimChars (cs : List Char) : List Char :=
  ((cs.dropWhile goIsSpace).reverse.dropWhile goIsSpace).reverse

/-- Model of `strings.TrimSpace`. -/
def trimSpace (s : String) : String :=
  String.mk (trimChars s.data)

/-! ### Data model (struct `TranslationItem` of `main.go`) -/

/-- Go struct `TranslationItem`: json tags `id`, `text`, `translation,omitempty`. -/
structure TranslationItem where
  ID : String
  Original : String
  Translation : String
deriving DecidableEq, Repr, Inhabited

/-! ### `sanitizeJSON` (lines 556-582 of `main.go`) -/

/-- The backtick rune (kept out of source text by building it numerically). -/
def bq : Char := Char.ofNat 96

/-- The rune list of the opening/closing markdown fence marker. -/
def fenceMark : List Char := [bq, bq, bq]

/-- The rune list of a fence marker tagged `json`. -/
def fenceJson : List Char := fenceMark ++ ['j', 's', 'o', 'n']

/-- Model of `strings.TrimPrefix`: drop `pre` when it heads `s`, else return `s`. -/
def dropPre (s pre : List Char) : List Char :=
  if pre.isPrefixOf s then s.drop pre.length else s

/-- Model of `strings.TrimSuffix`: drop `suf` when it ends `s`, else return `s`. -/
def dropSuf (s suf : List Char) : List Char :=
  if suf.isSuffixOf s then s.take (s.length - suf.length) else s

/-- Model of `strings.Index` for a single rune needle: first index, `none` for Go's -1. -/
def firstIdx (c : Char) : List Char → Option Nat
  | [] => none
  | x :: xs => if x = c then some 0 else (firstIdx c xs).map (· + 1)

/-- Model of `strings.LastIndex` for a single rune needle. -/
def lastIdx (c : Char) (cs : List Char) : Option Nat :=
  (firstIdx c cs.reverse).map (fun j => cs.length - 1 - j)

/-- The body of `sanitizeJSON` on a rune list: trim whitespace, strip a markdown code
    fence when present, then slice from the first `{` to the last `}`
    (only when both occur and in that order). -/
def sanitizeChars (input : List Char) : List Char :=
  let t0 := trimChars input
  let t :=
    if fenceMark.isPrefixOf t0 then
      trimChars (dropSuf (dropPre (dropPre t0 fenceJson) fenceMark) fenceMark)
    else t0
  match firstIdx '\x7b' t, lastIdx '\x7d' t with
  | some s, some e => if s < e then (t.drop s).take (e + 1 - s) else t
  | _, _ => t

/-- The function `sanitizeJSON` of `main.go`. -/
def sanitizeJSON (input : String) : String :=
  String.mk (sanitizeChars input.data)

/-! ### A rune-level model of `encoding/json` (used by `json.Unmarshal` in
    `translateWithGemini`).  Numbers are kept as raw rune runs: the program
    never interprets numeric values, only their shapes. -/

/-- A decoded JSON value (the shape `json.Unmarshal` produces for
    `interface\x7b\x7d` targets: `nil`, `bool`, number, `string`, slice, map). -/
inductive JValue where
  | jnull : JValue
  | jbool : Bool → JValue
  | jnum : String → JValue
  | jstr : String → JValue
  | jarr : List JValue → JValue
  | jobj : List (String × JValue) → JValue
deriving Inhabited

/-- JSON whitespace per Go's scanner (`isSpace` in `scanner.go`). -/
def jsWS (c : Char) : Bool :=
  c = ' ' || c = '\t' || c = '\n' || c = '\r'

/-- Skip JSON whitespace. -/
def jsSkip (cs : List Char) : List Char := cs.dropWhile jsWS

/-- Value of one hex digit. -/
def hexNib (c : Char) : Option Nat :=
  if '0' ≤ c ∧ c ≤ '9' then some (c.toNat - '0'.toNat)
  else if 'a' ≤ c ∧ c ≤ 'f' then some (c.toNat - 'a'.toNat + 10)
  else if 'A' ≤ c ∧ c ≤ 'F' then some (c.toNat - 'A'.toNat + 10)
  else none

/-- Four hex digits, big-endian (Go's `getu4`). -/
def hexQuad (a b c d : Char) : Option Nat := do
  let x ← hexNib a
  let y ← hexNib b
  let z ← hexNib c
  let w ← hexNib d
  pure (((x * 16 + y) * 16 + z) * 16 + w)

/-- The Unicode replacement rune Go substitutes for broken surrogates. -/
def replChar : Char := Char.ofNat 0xFFFD

/-- The single-rune escapes of JSON strings. -/
def escMap : Char → Option Char
  | '"' => some '"'
  | '\\' => some '\\'
  | '/' => some '/'
  | 'b' => some (Char.ofNat 8)
  | 'f' => some (Char.ofNat 12)
  | 'n' => some '\n'
  | 'r' => some '\r'
  | 't' => some '\t'
  | _ => none

/-- Body of a JSON string after the opening quote, following Go's scanner
    (raw control runes below 0x20 are rejected) and `unquote` (surrogate
    pairs combine; a broken surrogate becomes U+FFFD without consuming the
    following escape).  Returns the decoded runes and the remaining input.
    The fuel argument only forces termination: callers pass `length + 1`,
    which is never exhausted since every step consumes at least one rune. -/
def strBody : Nat → List Char → Option (List Char × List Char)
  | 0, _ => none
  | _, [] => none
  | f + 1, c :: cs =>
    if c = '"' then some ([], cs)
    else if c = '\\' then
      match cs with
      | 'u' :: a :: b :: c3 :: d :: cs3 =>
        match hexQuad a b c3 d with
        | none => none
        | some n =>
          if 0xD800 ≤ n ∧ n < 0xDC00 then
            match cs3 with
            | '\\' :: 'u' :: a2 :: b2 :: c4 :: d2 :: cs4 =>
              match hexQuad a2 b2 c4 d2 with
              | some m =>
                if 0xDC00 ≤ m ∧ m < 0xE000 then
                  (strBody f cs4).map (fun pr =>
                    (Char.ofNat (0x10000 + (n - 0xD800) * 0x400 + (m - 0xDC00)) :: pr.1, pr.2))
                else
                  (strBody f ('\\' :: 'u' :: a2 :: b2 :: c4 :: d2 :: cs4)).map
                    (fun pr => (replChar :: pr.1, pr.2))
              | none =>
                (strBody f ('\\' :: 'u' :: a2 :: b2 :: c4 :: d2 :: cs4)).map
                  (fun pr => (replChar :: pr.1, pr.2))
            | _ => (strBody f cs3).map (fun pr => (replChar :: pr.1, pr.2))
          else if 0xDC00 ≤ n ∧ n < 0xE000 then
            (strBody f cs3).map (fun pr => (replChar :: pr.1, pr.2))
          else (strBody f cs3).map (fun pr => (Char.ofNat n :: pr.1, pr.2))
      | e :: cs2 =>
        match escMap e with
        | some ch => (strBody f cs2).map (fun pr => (ch :: pr.1, pr.2))
        | none => none
      | [] => none
    else if c.toNat < 0x20 then none
    else (strBody f cs).map (fun pr => (c :: pr.1, pr.2))

/-- ASCII decimal digit test. -/
def isDig (c : Char) : Bool := '0' ≤ c && c ≤ '9'

/-- A JSON number token per Go's scanner: `-? (0 | [1-9][0-9]*)
    (. [0-9]+)? ([eE][+-]?[0-9]+)?`.  Returns the consumed runes and the
    rest; leading zeros, bare dots and empty exponents are rejected. -/
def numTok (cs : List Char) : Option (List Char × List Char) := do
  let (sgn, cs1) :=
    match cs with
    | '-' :: r => ([('-' : Char)], r)
    | _ => ([], cs)
  let (ip, cs2) ←
    match cs1 with
    | '0' :: r => some ([('0' : Char)], r)
    | c :: r =>
      if isDig c ∧ c ≠ '0' then
        some (c :: r.takeWhile isDig, r.dropWhile isDig)
      else none
    | [] => none
  let (fp, cs3) ←
    match cs2 with
    | '.' :: r =>
      let ds := r.takeWhile isDig
      if ds = [] then none else some ('.' :: ds, r.dropWhile isDig)
    | _ => some ([], cs2)
  let (ep, cs4) ←
    match cs3 with
    | c :: r =>
      if c = 'e' ∨ c = 'E' then
        let (sg, r1) :=
          match r with
          | '+' :: r' => ([('+' : Char)], r')
          | '-' :: r' => ([('-' : Char)], r')
          | _ => ([], r)
        let ds := r1.takeWhile isDig
        if ds = [] then none else some (c :: (sg ++ ds), r1.dropWhile isDig)
      else some ([], cs3)
    | [] => some ([], cs3)
  pure (sgn ++ ip ++ fp ++ ep, cs4)

mutual

/-- One JSON value, after optional whitespace.  `fuel` only forces
    termination (the recursion is structural in it); the top-level entry
    point supplies `length + 1`, which the parser never exhausts: the fuel
    spent below any position is covered by the runes consumed there. -/
def parseVal : Nat → List Char → Option (JValue × List Char)
  | 0, _ => none
  | f + 1, cs =>
    match jsSkip cs with
    | 'n' :: 'u' :: 'l' :: 'l' :: r => some (.jnull, r)
    | 't' :: 'r' :: 'u' :: 'e' :: r => some (.jbool true, r)
    | 'f' :: 'a' :: 'l' :: 's' :: 'e' :: r => some (.jbool false, r)
    | '"' :: r => (strBody (r.length + 1) r).map (fun pr => (.jstr (String.mk pr.1), pr.2))
    | '[' :: r =>
      match jsSkip r with
      | ']' :: r2 => some (.jarr [], r2)
      | r2 => (pElems f r2).map (fun pr => (.jarr pr.1, pr.2))
    | '\x7b' :: r =>
      match jsSkip r with
      | '\x7d' :: r2 => some (.jobj [], r2)
      | r2 => (pMembers f r2).map (fun pr => (.jobj pr.1, pr.2))
    | c :: r =>
      if c = '-' ∨ isDig c then
        (numTok (c :: r)).map (fun pr => (.jnum (String.mk pr.1), pr.2))
      else none
    | [] => none

/-- One-or-more comma-separated array elements followed by `]`. -/
def pElems : Nat → List Char → Option (List JValue × List Char)
  | 0, _ => none
  | f + 1, cs => do
    let (v, r) ← parseVal f cs
    match jsSkip r with
    | ',' :: r2 => (pElems f r2).map (fun pr => (v :: pr.1, pr.2))
    | ']' :: r2 => some ([v], r2)
    | _ => none

/-- One-or-more comma-separated object members followed by `\x7d`. -/
def pMembers : Nat → List Char → Option (List (String × JValue) × List Char)
  | 0, _ => none
  | f + 1, cs =>
    match jsSkip cs with
    | '"' :: r => do
      let (kcs, r1) ← strBody (r.length + 1) r
      match jsSkip r1 with
      | ':' :: r2 => do
        let (v, r3) ← parseVal f r2
        match jsSkip r3 with
        | ',' :: r4 => (pMembers f r4).map (fun pr => ((String.mk kcs, v) :: pr.1, pr.2))
        | '\x7d' :: r4 => some ([(String.mk kcs, v)], r4)
        | _ => none
      | _ => none
    | _ => none

end

/-- Parse a complete JSON document: one value plus trailing whitespace
    (Go's `checkValid` rejects anything after the top-level value). -/
def parseTop (s : String) : Option JValue :=
  match parseVal (s.data.length + 1) s.data with
  | some (v, rest) => if jsSkip rest = [] then some v else none
  | none => none

/-! ### Decoding into `GeminiResponse` (struct tags `results`, `id`, `text`,
    `translation`), following `encoding/json`'s reflection rules: unknown
    members are skipped, `null` leaves a field at its zero value, keys match
    tags up to `encoding/json`'s fold (ASCII case plus the Kelvin sign and
    the long s), duplicate keys assign in order, and any type mismatch makes
    `Unmarshal` return an error. -/

/-- The rune fold of `encoding/json`'s `foldName`: ASCII letters lowercase,
    U+212A folds to `k`, U+017F folds to `s`, all else unchanged. -/
def goFoldChar (c : Char) : Char :=
  if 'A' ≤ c ∧ c ≤ 'Z' then Char.ofNat (c.toNat + 32)
  else if c = Char.ofNat 0x212A then 'k'
  else if c = Char.ofNat 0x017F then 's'
  else c

/-- Go's `foldName` on a whole key. -/
def goFoldName (s : String) : String := String.mk (s.data.map goFoldChar)

/-- The json tag of `GeminiResponse.Results`. -/
def tagResults : String := "results"

/-- The json tag of `TranslationItem.ID`. -/
def tagId : String := "id"

/-- The json tag of `TranslationItem.Original`. -/
def tagText : String := "text"

/-- The json tag of `TranslationItem.Translation`. -/
def tagTranslation : String := "translation"

/-- Assign one object member into a `TranslationItem` under Go's rules:
    a matching key requires a string (or `null`, a no-op); an unknown key is
    skipped; a non-string value for a known key is a type error. -/
def setItemField (it : TranslationItem) (key : String) (v : JValue) : Option TranslationItem :=
  if goFoldName key = tagId then
    match v with
    | .jstr s => some { it with ID := s }
    | .jnull => some it
    | _ => none
  else if goFoldName key = tagText then
    match v with
    | .jstr s => some { it with Original := s }
    | .jnull => some it
    | _ => none
  else if goFoldName key = tagTranslation then
    match v with
    | .jstr s => some { it with Translation := s }
    | .jnull => some it
    | _ => none
  else some it

/-- Decode one element of the `results` array: an object (fields assigned in
    order) or `null` (zero value); anything else is a type error. -/
def decodeItem : JValue → Option TranslationItem
  | .jnull => some ⟨"", "", ""⟩
  | .jobj ms => ms.foldlM (fun it kv => setItemField it kv.1 kv.2) ⟨"", "", ""⟩
  | _ => none

/-- Decode the elements of the `results` array in order; the first
    mismatch is an error. -/
def decodeItemList : List JValue → Option (List TranslationItem)
  | [] => some []
  | x :: xs => do
    let it ← decodeItem x
    let its ← decodeItemList xs
    pure (it :: its)

/-- Decode the `results` member: an array of items, or `null` for the nil
    slice; anything else is a type error. -/
def decodeItems : JValue → Option (List TranslationItem)
  | .jnull => some []
  | .jarr xs => decodeItemList xs
  | _ => none

/-- Decode a whole document into `GeminiResponse`: the top value must be an
    object (or `null`); members other than `results` are ignored; the last
    `results` member wins and any mismatched one is an error. -/
def decodeGemini : JValue → Option (List TranslationItem)
  | .jnull => some []
  | .jobj ms =>
    ms.foldlM (fun acc kv => if goFoldName kv.1 = tagResults then decodeItems kv.2 else some acc) []
  | _ => none

/-- Model of `json.Unmarshal(data, &finalResp)` for `finalResp : GeminiResponse`:
    parse the document, then decode it. -/
def unmarshalGemini (s : String) : Option (List TranslationItem) :=
  (parseTop s).bind decodeGemini

/-- The extraction step of `translateWithGemini` (lines 543-553): sanitize
    the model text, unmarshal it, and on failure report an error carrying
    the sanitized text. -/
def extractTranslations (raw : String) : Except String (List TranslationItem) :=
  match unmarshalGemini (sanitizeJSON raw) with
  | some items => .ok items
  | none => .error (sanitizeJSON raw)

/-! ### Envelope unwrapping in `translateWithGemini` (lines 528-541).
    The Go code decodes the HTTP body into `map[string]interface\x7b\x7d`
    (ignoring the decode error: a non-object body leaves a nil map), tests
    `rawMap["candidates"].([]interface\x7b\x7d)` with the comma-ok form, and
    then chains unchecked type assertions and an unchecked index through
    `candidates[0].content.parts[0].text`. -/

/-- Outcome of the envelope-unwrapping step: the extracted text, the
    explicit `no candidates in response` error, or a Go runtime panic
    (failed type assertion / index out of range). -/
inductive UnwrapResult where
  | ok : String → UnwrapResult
  | remoteErr : UnwrapResult
  | panic : UnwrapResult
deriving DecidableEq, Repr

/-- The envelope keys the source dereferences. -/
def candKey : String := "candidates"

/-- The nested `content` key. -/
def contentKey : String := "content"

/-- The nested `parts` key. -/
def partsKey : String := "parts"

/-- The nested `text` key. -/
def textKey : String := "text"

/-- Go map indexing after `json.Unmarshal` into a map: the last member with
    a given key wins; a missing key yields nil (here `none`). -/
def mapIdx (ms : List (String × JValue)) (key : String) : Option JValue :=
  (ms.reverse.find? (fun kv => kv.1 = key)).map (·.2)

/-- The comma-ok type assertion
    `rawMap["candidates"].([]interface\x7b\x7d)` of line 534, on the decoded
    envelope (a non-object body leaves the nil map, whose lookup yields
    nil, so the assertion fails). -/
def candidatesOf (v : JValue) : Option (List JValue) :=
  match v with
  | .jobj ms =>
    match mapIdx ms candKey with
    | some (.jarr xs) => some xs
    | _ => none
  | _ => none

/-- The unwrap step of lines 534-541, translated assertion by assertion:
    the comma-ok assertion on `candidates` and the length check produce the
    error return; every later unchecked assertion and the `parts[0]` index
    panic when they fail. -/
def unwrapEnvelope (v : JValue) : UnwrapResult :=
  match candidatesOf v with
  | none => .remoteErr
  | some [] => .remoteErr
  | some (c0 :: _) =>
    match c0 with
    | .jobj cms =>
      match mapIdx cms contentKey with
      | some (.jobj cnt) =>
        match mapIdx cnt partsKey with
        | some (.jarr (p0 :: _)) =>
          match p0 with
          | .jobj pm =>
            match mapIdx pm textKey with
            | some (.jstr t) => .ok t
            | _ => .panic
          | _ => .panic
        | _ => .panic
      | _ => .panic
    | _ => .panic

/-- Spec-side accessor: `candidate.content.parts[0].text` as one total
    optional path. -/
def partTextOf (c : JValue) : Option String :=
  match c with
  | .jobj cms =>
    match mapIdx cms contentKey with
    | some (.jobj cnt) =>
      match mapIdx cnt partsKey with
      | some (.jarr (p0 :: _)) =>
        match p0 with
        | .jobj pm =>
          match mapIdx pm textKey with
          | some (.jstr t) => some t
          | _ => none
        | _ => none
      | _ => none
    | _ => none
  | _ => none

/-! ### `json.Marshal` for the result schema.  The program marshals
    `[]TranslationItem` when building the prompt, and instructs the model to
    answer with `\x7b"results": [...]\x7d`; re-serializing an extracted
    result set uses the same struct tags (`id`, `text`,
    `translation,omitempty`) and Go's default HTML-escaping encoder. -/

/-- Lowercase hex digit rune (Go indexes the constant `0123456789abcdef`). -/
def hexLower (n : Nat) : Char :=
  Char.ofNat (if n < 10 then 48 + n else 87 + n)

/-- Is an ASCII rune emitted verbatim by Go's HTML-escaping encoder? -/
def htmlSafe (c : Char) : Bool :=
  decide (0x20 ≤ c.toNat) && !(c = '"') && !(c = '\\') && !(c = '<') && !(c = '>') && !(c = '&')

/-- One rune as Go's `encodeState.string` emits it: ASCII specials become
    named escapes, other unsafe ASCII becomes `\u00XY`, U+2028/U+2029 are
    escaped, and everything else is verbatim. -/
def goEsc (c : Char) : List Char :=
  if c.toNat < 0x80 then
    if htmlSafe c then [c]
    else if c = '"' then ['\\', '"']
    else if c = '\\' then ['\\', '\\']
    else if c = '\n' then ['\\', 'n']
    else if c = '\r' then ['\\', 'r']
    else if c = '\t' then ['\\', 't']
    else ['\\', 'u', '0', '0', hexLower (c.toNat / 16), hexLower (c.toNat % 16)]
  else if c.toNat = 0x2028 then ['\\', 'u', '2', '0', '2', '8']
  else if c.toNat = 0x2029 then ['\\', 'u', '2', '0', '2', '9']
  else [c]

/-- A marshalled JSON string literal. -/
def marshalStr (s : String) : List Char :=
  '"' :: (s.data.flatMap goEsc ++ ['"'])

/-- One marshalled `key: value` member with a string value. -/
def marshalMember (k v : String) : List Char :=
  marshalStr k ++ ':' :: marshalStr v

/-- The members `json.Marshal` emits for one `TranslationItem`, in struct
    order, with the empty `translation` omitted (`omitempty`). -/
def itemMembers (it : TranslationItem) : List (String × String) :=
  [(tagId, it.ID), (tagText, it.Original)] ++
    (if it.Translation = "" then [] else [(tagTranslation, it.Translation)])

/-- Comma-separated marshalled members. -/
def memberSeq : List (String × String) → List Char
  | [] => []
  | [(k, v)] => marshalMember k v
  | (k, v) :: kvs => marshalMember k v ++ ',' :: memberSeq kvs

/-- A marshalled flat object whose values are all strings. -/
def marshalObj (kvs : List (String × String)) : List Char :=
  '\x7b' :: (memberSeq kvs ++ ['\x7d'])

/-- One marshalled `TranslationItem`. -/
def marshalItem (it : TranslationItem) : List Char :=
  marshalObj (itemMembers it)

/-- Comma-separated marshalled items. -/
def itemSeq : List TranslationItem → List Char
  | [] => []
  | [it] => marshalItem it
  | it :: its => marshalItem it ++ ',' :: itemSeq its

/-- The re-serialized result document `\x7b"results": [...]\x7d`. -/
def serializeResponse (items : List TranslationItem) : String :=
  String.mk ('\x7b' :: (marshalStr tagResults ++ ':' :: '[' :: (itemSeq items ++ [']', '\x7d'])))

/-! ### `removeURLFromFile` (lines 247-270) and `readProjects`
    (lines 335-351).  `strings.Split(string(data), "\n")` is modelled by
    `splitNL`; the per-line loop keeps every trimmed, non-blank line other
    than the removed unit, and the file is rewritten as the kept lines
    joined by newlines plus a trailing newline. -/

/-- The newline separator used when splitting and rejoining the file. -/
def nlSep : String := "\n"

/-- The comment marker `readProjects` skips. -/
def hashMark : String := "#"

/-- Model of `strings.Split` on the separator `"\n"`. -/
def splitNL : List Char → List (List Char)
  | [] => [[]]
  | c :: cs =>
    if c = '\n' then [] :: splitNL cs
    else
      match splitNL cs with
      | p :: ps => (c :: p) :: ps
      | [] => [[c]]

/-- The lines of a file body, as `strings.Split(s, "\n")` produces them. -/
def splitLines (s : String) : List String :=
  (splitNL s.data).map String.mk

/-- The filtering loop of `removeURLFromFile`: trim each line, keep it when
    it is neither blank nor the removed unit, appending in order. -/
def removeLoop (lines : List String) (url : String) (acc : List String) : List String :=
  match lines with
  | [] => acc
  | l :: ls =>
    let t := trimSpace l
    if t ≠ "" ∧ t ≠ url then removeLoop ls url (acc ++ [t])
    else removeLoop ls url acc

/-- The function `removeURLFromFile`, as the pure file-content transformation it performs
    between `os.ReadFile` and `os.WriteFile`. -/
def removeURLFromFile (content url : String) : String :=
  String.intercalate nlSep (removeLoop (splitLines content) url []) ++ nlSep

/-- The per-line filter of `readProjects`: trimmed, non-blank lines that do
    not start with `#`, in order.  (`bufio.Scanner` feeds it the file's
    lines; this model takes those lines directly.) -/
def readProjectLines (lines : List String) : List String :=
  lines.filterMap (fun l =>
    let t := trimSpace l
    if t ≠ "" ∧ ¬ t.startsWith hashMark then some t else none)

/-! ### `scrollAndCollect` (lines 404-471).  One pass queries a snapshot of
    the rendered rows, marks unseen ids, classifies the newly seen rows,
    and appends the empty ones to the results; the loop stops after 5
    consecutive passes that add no new id (`maxNoNewRetries`), or early
    when listing the rows fails.  Scrolling and the settle delay have no
    effect on the collected data and are not modelled. -/

/-- The per-row data the loop reads from the page: the `data-id` attribute
    (empty when absent), the `.empty` marker count and inner text of the
    target-language cell, the highlighted source span (`none` when the
    locator errors), and the full source-cell text. -/
structure Row where
  id : String
  emptyCount : Nat
  cellText : String
  highlight : Option String
  baseText : String
deriving DecidableEq, Repr, Inhabited

/-- The literal placeholder text an empty target cell may show. -/
def emptyTok : String := "Empty"

/-- The emptiness test of line 438. -/
def isEmptyRow (r : Row) : Bool :=
  decide (0 < r.emptyCount) || trimSpace r.cellText = "" || trimSpace r.cellText = emptyTok

/-- The source text chosen for an empty row (lines 439-442): the highlighted
    span unless that lookup errored or returned the empty string, else the
    full cell text. -/
def originalOf (r : Row) : String :=
  match r.highlight with
  | some t => if t = "" then r.baseText else t
  | none => r.baseText

/-- The `TranslationItem` appended for an empty row (lines 444-447). -/
def itemOf (r : Row) : TranslationItem :=
  ⟨r.id, trimSpace (originalOf r), ""⟩

/-- Loop state across passes: accumulated results, the `seen` id set, the
    `noNewElementsCount` stall counter, and the pass index (which snapshot
    the provider serves next). -/
structure CState where
  results : List TranslationItem
  seen : List String
  noNew : Nat
  pass : Nat
deriving DecidableEq, Repr

/-- The inner per-row loop of one pass (lines 423-450): skip rows with a
    blank or already seen id; otherwise mark the id seen, count it as new,
    and append an item when the row classifies as empty. -/
def processRows : List Row → List TranslationItem → List String → Nat →
    List TranslationItem × List String × Nat
  | [], res, seen, n => (res, seen, n)
  | r :: rs, res, seen, n =>
    if r.id = "" ∨ r.id ∈ seen then processRows rs res seen n
    else
      let seen' := r.id :: seen
      if isEmptyRow r then processRows rs (res ++ [itemOf r]) seen' (n + 1)
      else processRows rs res seen' (n + 1)

/-- One pass over a snapshot, then the stall-counter update of lines
    452-456 and the advance to the next snapshot. -/
def stepPass (rows : List Row) (s : CState) : CState :=
  let (res, seen, n) := processRows rows s.results s.seen 0
  { results := res, seen := seen,
    noNew := if 0 < n then 0 else s.noNew + 1,
    pass := s.pass + 1 }

/-- The threshold `maxNoNewRetries` of line 409. -/
def maxNoNewRetries : Nat := 5

/-- The collection loop: while the stall counter is below the threshold,
    fetch the next snapshot (`none` models a row-listing error, which
    breaks out returning what was accumulated) and run a pass.  `fuel`
    bounds the modelled iterations; the Go loop itself runs unboundedly
    while new ids keep appearing. -/
def scrollLoop (provider : Nat → Option (List Row)) : Nat → CState → CState
  | 0, s => s
  | fuel + 1, s =>
    if s.noNew < maxNoNewRetries then
      match provider s.pass with
      | none => s
      | some rows => scrollLoop provider fuel (stepPass rows s)
    else s

/-- The state the loop starts from (lines 405-410). -/
def initCState : CState := ⟨[], [], 0, 0⟩

/-- The function `scrollAndCollect`, as the results of running the loop from the initial
    state.  The Go function's error result is the constant nil: every
    return path yields `(results, nil)`. -/
def scrollAndCollect (provider : Nat → Option (List Row)) (fuel : Nat) : List TranslationItem :=
  (scrollLoop provider fuel initCState).results

/-! ### Concrete documents named by the claims -/

/-- The markdown-fenced example response. -/
def fencedC1 : String := "```json\n\x7b\"results\":[\x7b\"id\":\"5\",\"translation\":\"x\"\x7d]\x7d\n```"

/-- The unfenced example response with surrounding prose. -/
def unfencedC1 : String := "prefix text \x7b\"results\":[\x7b\"id\":\"5\",\"translation\":\"x\"\x7d]\x7d trailing"

/-- The expected extracted item for both example responses. -/
def itemC1 : TranslationItem := ⟨"5", "", "x"⟩

/-- A JSON object that does not match the result schema. -/
def c2Input : String := "\x7b\"foo\":1\x7d"

/-- The single key of `c2Input`. -/
def c2Key : String := "foo"

/-- The raw number text of `c2Input`'s single member. -/
def c2Num : String := "1"

/-- The unbalanced-brace document. -/
def c3Input : String := "\x7b\"results\": ["

/-- A response with no JSON at all. -/
def c3Plain : String := "no json here"

/-- A work-list file holding a comment line, the removed unit and a
    duplicated unit. -/
def c4Content : String := "# keep\nA\nB\nB\n"

/-- The unit removed from `c4Content`. -/
def c4Unit : String := "A"

/-- What the file rewrite would produce if comment lines and duplicates
    were dropped, as the claim states. -/
def c4ClaimOut : String := "B\n"

/-- The text carried by the well-formed example envelope. -/
def helloText : String := "hello"

/-- An envelope whose first candidate carries none of the nested fields. -/
def badEnvelope : JValue := .jobj [(candKey, .jarr [.jobj []])]

/-- A well-formed envelope carrying one candidate and one part. -/
def goodEnvelope : JValue :=
  .jobj [(candKey, .jarr [.jobj [(contentKey,
    .jobj [(partsKey, .jarr [.jobj [(textKey, .jstr helloText)]])])]])]

/-- The first candidate of `goodEnvelope`. -/
def goodCand : JValue :=
  .jobj [(contentKey, .jobj [(partsKey, .jarr [.jobj [(textKey, .jstr helloText)]])])]

/-- A successfully extracting document with an empty result list. -/
def emptyResultsDoc : String := "\x7b\"results\":[]\x7d"

/-- A row with an empty target cell. -/
def rowA : Row := ⟨"a", 1, "", none, " src "⟩

/-- The provider that renders `rowA` on every pass. -/
def provA : Nat → Option (List Row) := fun _ => some [rowA]

/-! ### Values denoted by the marshalled result schema -/

/-- The kept-line filter of `removeURLFromFile`, as one function. -/
def keepLine (url : String) (l : String) : Option String :=
  let t := trimSpace l
  if t ≠ "" ∧ t ≠ url then some t else none

/-- The JSON value a marshalled `TranslationItem` denotes. -/
def jItemVal (it : TranslationItem) : JValue :=
  .jobj ((itemMembers it).map (fun kv => (kv.1, .jstr kv.2)))

/-- The JSON value a marshalled result document denotes. -/
def jRespVal (items : List TranslationItem) : JValue :=
  .jobj [(tagResults, .jarr (items.map jItemVal))]

/-- The rune list of the re-serialized result document. -/
def respChars (items : List TranslationItem) : List Char :=
  '\x7b' :: (marshalStr tagResults ++ ':' :: '[' :: (itemSeq items ++ [']', '\x7d']))

/-! ## Theorems

    Each claim `Cn` of the specification is settled by one theorem below;
    shared helper lemmas come first. -/

/-! ### Work-list helpers -/

/-- The accumulator of `removeLoop` only rides along in front. -/
theorem removeLoop_eq_filterMap (ls : List String) (url : String) : ∀ acc,
    removeLoop ls url acc = acc ++ ls.filterMap (keepLine url) := by
  induction ls with
  | nil => intro acc; simp [removeLoop]
  | cons l ls ih =>
    intro acc
    by_cases h : trimSpace l ≠ "" ∧ trimSpace l ≠ url
    · simp [removeLoop, h, ih, keepLine, List.filterMap_cons]
    · simp [removeLoop, h, ih, keepLine, List.filterMap_cons]

/-- Trimming is leading `dropWhile` followed by Mathlib's `rdropWhile`. -/
theorem trimChars_eq (cs : List Char) :
    trimChars cs = (cs.dropWhile goIsSpace).rdropWhile goIsSpace := rfl

/-- Trimming is idempotent. -/
theorem trimChars_idem (cs : List Char) : trimChars (trimChars cs) = trimChars cs := by
  rw [trimChars_eq, trimChars_eq]
  have hdropB : ((cs.dropWhile goIsSpace).rdropWhile goIsSpace).dropWhile goIsSpace
      = (cs.dropWhile goIsSpace).rdropWhile goIsSpace := by
    rw [List.dropWhile_eq_self_iff]
    intro hl
    have hpre : (cs.dropWhile goIsSpace).rdropWhile goIsSpace <+: cs.dropWhile goIsSpace :=
      List.rdropWhile_prefix _ _
    have hlenA : 0 < (cs.dropWhile goIsSpace).length := lt_of_lt_of_le hl hpre.length_le
    have hgz := List.dropWhile_get_zero_not goIsSpace cs hlenA
    have hget := List.IsPrefix.getElem hpre hl
    simp only [List.get_eq_getElem] at hgz ⊢
    rw [hget]
    exact hgz
  rw [hdropB, List.rdropWhile_idempotent]

/-- Trimming a string is idempotent. -/
theorem trimSpace_idem (s : String) : trimSpace (trimSpace s) = trimSpace s := by
  simp [trimSpace, trimChars_idem]

/-- C10.  `removeURLFromFile` matches lines against the unit after
    trimming: its per-line loop keeps exactly the trimmed, non-blank lines
    different from the unit, in their original order — so every line whose
    trimmed content equals the unit (duplicates included) is removed, and
    the unit never survives into the rewritten list. -/
theorem removeURLFromFile_trim_filter (content url : String) :
    removeLoop (splitLines content) url [] = (splitLines content).filterMap (keepLine url)
    ∧ url ∉ removeLoop (splitLines content) url []
    ∧ removeURLFromFile content url =
        String.intercalate nlSep ((splitLines content).filterMap (keepLine url)) ++ nlSep := by
  refine ⟨removeLoop_eq_filterMap _ _ _, ?_, ?_⟩
  · rw [removeLoop_eq_filterMap]
    simp only [List.nil_append, List.mem_filterMap]
    rintro ⟨l, -, hkeep⟩
    simp only [keepLine] at hkeep
    split at hkeep
    · rename_i hcond
      cases hkeep
      exact hcond.2 rfl
    · cases hkeep
  · simp [removeURLFromFile, removeLoop_eq_filterMap]

/-- The line filter of `readProjects` composes with the rewrite filter:
    reading the kept lines back yields the original project list minus
    every occurrence of the removed unit (trimming is idempotent, and the
    rewrite keeps comment lines for the reader to skip again). -/
theorem readProject_removeLoop (ls : List String) (url : String) :
    readProjectLines (ls.filterMap (keepLine url)) =
      (readProjectLines ls).filter (fun t => t != url) := by
  induction ls with
  | nil => simp [readProjectLines]
  | cons l ls ih =>
    by_cases h1 : trimSpace l = ""
    · simpa [readProjectLines, List.filterMap_cons, keepLine, h1] using ih
    · by_cases h2 : trimSpace l = url
      · have h1u : ¬ url = "" := h2 ▸ h1
        by_cases h3 : (trimSpace l).startsWith hashMark
        · have h3u : url.startsWith hashMark = true := h2 ▸ h3
          simpa [readProjectLines, List.filterMap_cons, keepLine, h1, h2, h3, h1u, h3u] using ih
        · have h3u : ¬ url.startsWith hashMark = true := h2 ▸ h3
          simpa [readProjectLines, List.filterMap_cons, keepLine, h1, h2, h3, h1u, h3u,
            List.filter_cons] using ih
      · by_cases h3 : (trimSpace l).startsWith hashMark
        · simpa [readProjectLines, List.filterMap_cons, keepLine, h1, h2, h3,
            trimSpace_idem] using ih
        · simpa [readProjectLines, List.filterMap_cons, keepLine, h1, h2, h3,
            trimSpace_idem, List.filter_cons, bne] using ih

/-- C4 counterexample.  Removing unit `A` from a file holding a comment
    line and a duplicated unit `B` keeps both the comment line and both
    copies of `B`: the rewrite does not drop comment lines or duplicates,
    so the file is not the claimed `"B\n"`. -/
theorem removeURLFromFile_c4_counterexample :
    removeURLFromFile c4Content c4Unit ≠ c4ClaimOut
    ∧ splitLines (removeURLFromFile c4Content c4Unit) = ["# keep", "B", "B", ""] :=
  ⟨by decide, by decide⟩

/-- C4 amended.  After a successful `removeURLFromFile` the file holds
    exactly the trimmed non-blank lines whose content differs from the
    removed unit — comment lines and duplicate lines included — one per
    line with a trailing newline; read back through `readProjects`' line
    filter, the kept lines yield exactly the original unit sequence minus
    every occurrence of the removed unit. -/
theorem removeURLFromFile_amended (content url : String) :
    removeURLFromFile content url =
      String.intercalate nlSep ((splitLines content).filterMap (keepLine url)) ++ nlSep
    ∧ readProjectLines (removeLoop (splitLines content) url []) =
        (readProjectLines (splitLines content)).filter (fun t => t != url) := by
  constructor
  · simp [removeURLFromFile, removeLoop_eq_filterMap]
  · rw [removeLoop_eq_filterMap]
    simpa using readProject_removeLoop (splitLines content) url

/-! ### Collector helpers -/

/-- A pass over rows that are all blank-id or already seen changes nothing
    and counts zero new elements. -/
theorem processRows_stale (rows : List Row) (res : List TranslationItem)
    (seen : List String) (n : Nat)
    (h : ∀ r ∈ rows, r.id = "" ∨ r.id ∈ seen) :
    processRows rows res seen n = (res, seen, n) := by
  induction rows with
  | nil => rfl
  | cons r rs ih =>
    have hr := h r (List.mem_cons_self r rs)
    simp only [processRows, if_pos hr]
    exact ih (fun x hx => h x (List.mem_cons_of_mem r hx))

/-- While every snapshot the provider serves is stale relative to `s.seen`,
    each pass only bumps the stall counter and the pass index. -/
theorem scrollLoop_stall (provider : Nat → Option (List Row)) :
    ∀ (m k : Nat) (s : CState),
      (∀ i, ∃ rows, provider i = some rows ∧ ∀ r ∈ rows, r.id = "" ∨ r.id ∈ s.seen) →
      s.noNew + m = maxNoNewRetries →
      scrollLoop provider (m + k) s =
        { s with noNew := maxNoNewRetries, pass := s.pass + m } := by
  intro m
  induction m with
  | zero =>
    intro k s _ hcnt
    cases k with
    | zero => simp [scrollLoop, ← hcnt]
    | succ k =>
      have : ¬ s.noNew < maxNoNewRetries := by omega
      simp [scrollLoop, this, ← hcnt]
  | succ m ih =>
    intro k s hprov hcnt
    obtain ⟨rows, hrows, hstale⟩ := hprov s.pass
    have hlt : s.noNew < maxNoNewRetries := by
      simp only [maxNoNewRetries] at hcnt ⊢; omega
    have hstep : stepPass rows s = { s with noNew := s.noNew + 1, pass := s.pass + 1 } := by
      simp [stepPass, processRows_stale rows s.results s.seen 0 hstale]
    have : (m + 1) + k = (m + k) + 1 := by omega
    rw [this]
    simp only [scrollLoop, if_pos hlt, hrows, hstep]
    have := ih k { s with noNew := s.noNew + 1, pass := s.pass + 1 }
      (by simpa using hprov) (by simpa using by omega)
    simpa [Nat.add_assoc, Nat.add_comm, Nat.add_left_comm] using this

/-- C6.  A provider whose snapshots never show an id outside `s.seen`
    (never yields a new id) makes the loop execute exactly
    `maxNoNewRetries = 5` stall passes — the pass counter advances by
    exactly 5, independent of the remaining fuel — and return with the
    accumulated results and seen set untouched; in particular the zero-row
    provider started from the initial state returns an empty batch (and the
    Go function's error result is the constant nil on this path). -/
theorem scrollAndCollect_stall_termination (provider : Nat → Option (List Row))
    (s : CState) (k : Nat)
    (hprov : ∀ i, ∃ rows, provider i = some rows ∧ ∀ r ∈ rows, r.id = "" ∨ r.id ∈ s.seen)
    (hstart : s.noNew = 0) :
    scrollLoop provider (maxNoNewRetries + k) s =
      { s with noNew := maxNoNewRetries, pass := s.pass + maxNoNewRetries }
    ∧ (scrollLoop provider (maxNoNewRetries + k) s).results = s.results
    ∧ (scrollLoop provider (maxNoNewRetries + k) s).seen = s.seen := by
  have h := scrollLoop_stall provider maxNoNewRetries k s hprov (by omega)
  exact ⟨h, by rw [h], by rw [h]⟩

/-- Witness for C6: the zero-row provider from the initial state stalls out
    after five passes with an empty batch. -/
theorem scrollAndCollect_stall_termination_witness :
    scrollAndCollect (fun _ => some []) (maxNoNewRetries + 2) = []
    ∧ (scrollLoop (fun _ => some []) (maxNoNewRetries + 2) initCState).pass = 5 := by
  have h := scrollAndCollect_stall_termination (fun _ => some []) initCState 2
    (fun i => ⟨[], rfl, by simp⟩) rfl
  refine ⟨?_, ?_⟩
  · simpa [scrollAndCollect, initCState] using h.2.1
  · rw [h.1]
    simp [initCState, maxNoNewRetries]

/-- The fields of one pass, in terms of the row loop. -/
theorem stepPass_results (rows : List Row) (s : CState) :
    (stepPass rows s).results = (processRows rows s.results s.seen 0).1 := by
  rcases hp : processRows rows s.results s.seen 0 with ⟨a, b, c⟩
  simp [stepPass, hp]

/-- The seen set of one pass, in terms of the row loop. -/
theorem stepPass_seen (rows : List Row) (s : CState) :
    (stepPass rows s).seen = (processRows rows s.results s.seen 0).2.1 := by
  rcases hp : processRows rows s.results s.seen 0 with ⟨a, b, c⟩
  simp [stepPass, hp]

/-- The row loop preserves the collector's invariant: result ids are
    recorded in `seen` and non-blank, result ids are pairwise distinct, and
    the blank id is never recorded. -/
theorem processRows_inv (rows : List Row) :
    ∀ (res : List TranslationItem) (seen : List String) (n : Nat),
      (∀ it ∈ res, it.ID ∈ seen ∧ it.ID ≠ "") →
      (res.map TranslationItem.ID).Nodup →
      "" ∉ seen →
      (∀ it ∈ (processRows rows res seen n).1,
          it.ID ∈ (processRows rows res seen n).2.1 ∧ it.ID ≠ "")
      ∧ ((processRows rows res seen n).1.map TranslationItem.ID).Nodup
      ∧ "" ∉ (processRows rows res seen n).2.1 := by
  induction rows with
  | nil => intro res seen n h1 h2 h3; exact ⟨h1, h2, h3⟩
  | cons r rs ih =>
    intro res seen n h1 h2 h3
    by_cases hskip : r.id = "" ∨ r.id ∈ seen
    · simp only [processRows]
      rw [if_pos hskip]
      exact ih res seen n h1 h2 h3
    · rw [not_or] at hskip
      obtain ⟨hid, hnotseen⟩ := hskip
      have h1' : ∀ it ∈ res, it.ID ∈ r.id :: seen ∧ it.ID ≠ "" :=
        fun it hit => ⟨List.mem_cons_of_mem _ (h1 it hit).1, (h1 it hit).2⟩
      have h3' : "" ∉ r.id :: seen := by
        intro hmem
        rcases List.mem_cons.mp hmem with h | h
        · exact hid h.symm
        · exact h3 h
      simp only [processRows]
      rw [if_neg (not_or.mpr ⟨hid, hnotseen⟩)]
      by_cases hemp : isEmptyRow r = true
      · rw [if_pos hemp]
        refine ih (res ++ [itemOf r]) (r.id :: seen) (n + 1) ?_ ?_ h3'
        · intro it hit
          rcases List.mem_append.mp hit with h | h
          · exact h1' it h
          · rcases List.mem_singleton.mp h with rfl
            exact ⟨List.mem_cons_self _ _, hid⟩
        · have hfresh : ∀ x ∈ res, ¬ x.ID = r.id :=
            fun x hx he => hnotseen (he ▸ (h1 x hx).1)
          simpa [List.nodup_append, itemOf] using ⟨h2, hfresh⟩
      · rw [if_neg hemp]
        exact ih res (r.id :: seen) (n + 1) h1' h2 h3'

/-- The collector loop preserves the invariant across passes. -/
theorem scrollLoop_inv (provider : Nat → Option (List Row)) :
    ∀ (fuel : Nat) (s : CState),
      (∀ it ∈ s.results, it.ID ∈ s.seen ∧ it.ID ≠ "") →
      (s.results.map TranslationItem.ID).Nodup →
      "" ∉ s.seen →
      (∀ it ∈ (scrollLoop provider fuel s).results,
          it.ID ∈ (scrollLoop provider fuel s).seen ∧ it.ID ≠ "")
      ∧ ((scrollLoop provider fuel s).results.map TranslationItem.ID).Nodup
      ∧ "" ∉ (scrollLoop provider fuel s).seen := by
  intro fuel
  induction fuel with
  | zero => intro s h1 h2 h3; exact ⟨h1, h2, h3⟩
  | succ fuel ih =>
    intro s h1 h2 h3
    by_cases hlt : s.noNew < maxNoNewRetries
    · have hloop : scrollLoop provider (fuel + 1) s =
          match provider s.pass with
          | none => s
          | some rows => scrollLoop provider fuel (stepPass rows s) := by
        simp only [scrollLoop]
        rw [if_pos hlt]
      cases hrows : provider s.pass with
      | none => rw [hloop, hrows]; exact ⟨h1, h2, h3⟩
      | some rows =>
        rw [hloop, hrows]
        have hinv := processRows_inv rows s.results s.seen 0 h1 h2 h3
        have e1 := stepPass_results rows s
        have e2 := stepPass_seen rows s
        exact ih (stepPass rows s) (by rw [e1, e2]; exact hinv.1)
          (by rw [e1]; exact hinv.2.1) (by rw [e2]; exact hinv.2.2)
    · simp only [scrollLoop]
      rw [if_neg hlt]
      exact ⟨h1, h2, h3⟩

/-- C7.  The batch `scrollAndCollect` returns never holds two entries
    with the same id: a row id is marked seen before it is classified, so
    it is appended at most once across all passes. -/
theorem scrollAndCollect_dedup (provider : Nat → Option (List Row)) (fuel : Nat) :
    ((scrollAndCollect provider fuel).map TranslationItem.ID).Nodup :=
  (scrollLoop_inv provider fuel initCState (by simp [initCState]) (by simp [initCState])
    (by simp [initCState])).2.1

/-- C9.  Every item collected by `scrollAndCollect` carries a non-empty
    id, and the blank id is never marked seen: a rendered row with a
    missing or empty `data-id` is skipped before classification, for every
    provider behaviour and fuel. -/
theorem scrollAndCollect_ids_nonempty (provider : Nat → Option (List Row)) (fuel : Nat) :
    (∀ it ∈ scrollAndCollect provider fuel, it.ID ≠ "")
    ∧ "" ∉ (scrollLoop provider fuel initCState).seen := by
  have h := scrollLoop_inv provider fuel initCState (by simp [initCState])
    (by simp [initCState]) (by simp [initCState])
  exact ⟨fun it hit => (h.1 it hit).2, h.2.2⟩

/-- Witness for C9: the singleton provider collects exactly the item of
    `rowA`, whose id is the non-empty `"a"`. -/
theorem scrollAndCollect_ids_nonempty_witness :
    (itemOf rowA).ID ≠ "" :=
  (scrollAndCollect_ids_nonempty provA 7).1 (itemOf rowA) (by decide)

/-! ### Extraction claims -/

/-- C1.  The fenced and the unfenced example responses both extract to
    the same single-element result list: id `5`, translation `x` (the
    `text` field is absent, so `Original` stays at its zero value). -/
theorem extract_examples_agree :
    extractTranslations fencedC1 = .ok [itemC1]
    ∧ extractTranslations unfencedC1 = .ok [itemC1] :=
  ⟨rfl, rfl⟩

/-- Members whose keys do not fold to `results` are skipped by the decoder,
    leaving the accumulator untouched. -/
theorem foldSkip (ms : List (String × JValue))
    (h : ∀ kv ∈ ms, goFoldName kv.1 ≠ tagResults) :
    ∀ init : List TranslationItem,
      ms.foldlM (fun acc kv =>
        if goFoldName kv.1 = tagResults then decodeItems kv.2 else some acc) init = some init := by
  induction ms with
  | nil => intro init; rfl
  | cons kv ms ih =>
    intro init
    have hk := h kv (List.mem_cons_self kv ms)
    simp only [List.foldlM_cons, if_neg hk, Option.bind_eq_bind, Option.some_bind]
    exact ih (fun x hx => h x (List.mem_cons_of_mem kv hx)) init

/-- A parsed object with no member matching `results` decodes to the zero
    `GeminiResponse`, i.e. the empty result list. -/
theorem decodeGemini_no_results (ms : List (String × JValue))
    (h : ∀ kv ∈ ms, goFoldName kv.1 ≠ tagResults) :
    decodeGemini (.jobj ms) = some [] :=
  foldSkip ms h []

/-- C2 counterexample.  The sanitized text `\x7b"foo":1\x7d` parses as a
    JSON object that does not match the `\x7b"results": [...]\x7d` schema, yet
    extraction succeeds with an empty result list instead of failing:
    `json.Unmarshal` ignores unknown members. -/
theorem extract_schema_mismatch_succeeds :
    parseTop (sanitizeJSON c2Input) = some (.jobj [(c2Key, .jnum c2Num)])
    ∧ extractTranslations c2Input = .ok [] :=
  ⟨rfl, rfl⟩

/-- C2 amended.  Extraction fails exactly when the sanitized text
    does not unmarshal (no parseable JSON document, or a `results` member
    of the wrong shape), and the error carries the sanitized text; but a
    parseable object with no member matching `results` is not a failure:
    it extracts to the empty result list. -/
theorem extractTranslations_amended :
    (∀ raw : String, extractTranslations raw = .error (sanitizeJSON raw) ↔
        unmarshalGemini (sanitizeJSON raw) = none)
    ∧ (∀ (raw : String) (ms : List (String × JValue)),
        parseTop (sanitizeJSON raw) = some (.jobj ms) →
        (∀ kv ∈ ms, goFoldName kv.1 ≠ tagResults) →
        extractTranslations raw = .ok []) := by
  constructor
  · intro raw
    unfold extractTranslations
    cases h : unmarshalGemini (sanitizeJSON raw) <;> simp [h]
  · intro raw ms hparse hkeys
    unfold extractTranslations unmarshalGemini
    rw [hparse]
    simp [decodeGemini_no_results ms hkeys]

/-- Witness for C2 (amended): the schema-mismatched object extracts to the
    empty result list. -/
theorem extractTranslations_amended_witness :
    extractTranslations c2Input = .ok [] :=
  extractTranslations_amended.2 c2Input [(c2Key, .jnum c2Num)] rfl (by decide)

/-- C3.  The unbalanced document `\x7b"results": [` sanitizes to itself
    (there is no closing brace to slice to) and fails to parse, so
    extraction returns the descriptive error carrying the sanitized text —
    never an empty success; in general every parse failure of the
    sanitized text yields that error. -/
theorem extract_unbalanced_errors :
    extractTranslations c3Input = .error c3Input
    ∧ (∀ raw : String, parseTop (sanitizeJSON raw) = none →
        extractTranslations raw = .error (sanitizeJSON raw)) := by
  refine ⟨rfl, ?_⟩
  intro raw h
  unfold extractTranslations unmarshalGemini
  rw [h]
  rfl

/-- Witness for C3: prose with no JSON object at all extracts to the
    descriptive error. -/
theorem extract_unbalanced_errors_witness :
    extractTranslations c3Plain = .error (sanitizeJSON c3Plain) :=
  extract_unbalanced_errors.2 c3Plain rfl

/-! ### Envelope claims -/

/-- C5 counterexample.  An envelope with one candidate that carries no
    `content` panics in the unwrap step (unchecked type assertion) instead
    of failing with the remote-call error the claim requires. -/
theorem unwrapEnvelope_missing_parts_panics :
    unwrapEnvelope badEnvelope = .panic ∧ unwrapEnvelope badEnvelope ≠ .remoteErr :=
  ⟨rfl, by decide⟩

/-- C5 amended.  The unwrap step returns the remote-call error
    exactly when the comma-ok assertion fails (no `candidates` array) or
    the array is empty; when a first candidate exists, the step either
    extracts `content.parts[0].text` or panics on the unchecked
    assertions — it never reports the error, and it does panic whenever
    any nested field is missing or of the wrong type. -/
theorem unwrapEnvelope_amended :
    (∀ v : JValue, candidatesOf v = none → unwrapEnvelope v = .remoteErr)
    ∧ (∀ v : JValue, candidatesOf v = some [] → unwrapEnvelope v = .remoteErr)
    ∧ (∀ (v c0 : JValue) (cs : List JValue), candidatesOf v = some (c0 :: cs) →
        unwrapEnvelope v = (match partTextOf c0 with
          | some t => .ok t
          | none => .panic)) := by
  refine ⟨?_, ?_, ?_⟩
  · intro v h; simp [unwrapEnvelope, h]
  · intro v h; simp [unwrapEnvelope, h]
  · intro v c0 cs h
    simp only [unwrapEnvelope, h]
    cases c0 with
    | jobj cms =>
      rcases h1 : mapIdx cms contentKey with - | v1
      · simp [partTextOf, h1]
      · cases v1 with
        | jobj cnt =>
          rcases h2 : mapIdx cnt partsKey with - | v2
          · simp [partTextOf, h1, h2]
          · cases v2 with
            | jarr ps =>
              cases ps with
              | nil => simp [partTextOf, h1, h2]
              | cons p0 prest =>
                cases p0 with
                | jobj pm =>
                  rcases h3 : mapIdx pm textKey with - | v3
                  · simp [partTextOf, h1, h2, h3]
                  · cases v3 <;> simp [partTextOf, h1, h2, h3]
                | jnull => simp [partTextOf, h1, h2]
                | jbool b => simp [partTextOf, h1, h2]
                | jnum q => simp [partTextOf, h1, h2]
                | jstr q => simp [partTextOf, h1, h2]
                | jarr a => simp [partTextOf, h1, h2]
            | jnull => simp [partTextOf, h1, h2]
            | jbool b => simp [partTextOf, h1, h2]
            | jnum q => simp [partTextOf, h1, h2]
            | jstr q => simp [partTextOf, h1, h2]
            | jobj o => simp [partTextOf, h1, h2]
        | jnull => simp [partTextOf, h1]
        | jbool b => simp [partTextOf, h1]
        | jnum q => simp [partTextOf, h1]
        | jstr q => simp [partTextOf, h1]
        | jarr a => simp [partTextOf, h1]
    | jnull => simp [partTextOf]
    | jbool b => simp [partTextOf]
    | jnum q => simp [partTextOf]
    | jstr q => simp [partTextOf]
    | jarr a => simp [partTextOf]

/-- Witness for C5 (amended): the well-formed single-candidate envelope
    unwraps to its part text. -/
theorem unwrapEnvelope_amended_witness :
    unwrapEnvelope goodEnvelope = .ok helloText := by
  have h := unwrapEnvelope_amended.2.2 goodEnvelope goodCand [] rfl
  simpa using h

/-! ### Round-trip helpers for C8: the marshalled result document parses
    back to the value it encodes. -/

/-- A lowercase hex digit decodes to the value it encodes. -/
theorem hexNib_hexLower (n : Nat) (h : n < 16) : hexNib (hexLower n) = some n := by
  interval_cases n <;> decide

/-- A rune at or above `0x80` is none of the ASCII runes the string scanner
    treats specially. -/
theorem char_hi_facts {c : Char} (h : 0x80 ≤ c.toNat) :
    ¬ c = '"' ∧ ¬ c = '\\' ∧ ¬ c.toNat < 0x20 := by
  refine ⟨?_, ?_, by omega⟩ <;> (rintro rfl; simp_all)

/-- A `\u` escape with four hex digits decoding outside the surrogate
    ranges yields the rune of its value. -/
theorem strBody_u_plain (f : Nat) (a b c3 d : Char) (tail : List Char) (n : Nat)
    (hq : hexQuad a b c3 d = some n) (h1 : ¬ (0xD800 ≤ n ∧ n < 0xDC00))
    (h2 : ¬ (0xDC00 ≤ n ∧ n < 0xE000)) :
    strBody (f + 1) ('\\' :: 'u' :: a :: b :: c3 :: d :: tail) =
      (strBody f tail).map (fun pr => (Char.ofNat n :: pr.1, pr.2)) := by
  simp [strBody, hq, h1, h2]

/-- Reading one escaped rune from the front of a string body undoes
    `goEsc`. -/
theorem strBody_esc (c : Char) (f : Nat) (rest : List Char) :
    strBody (f + 1) (goEsc c ++ rest) =
      (strBody f rest).map (fun pr => (c :: pr.1, pr.2)) := by
  by_cases hlo : c.toNat < 0x80
  · by_cases hsafe : htmlSafe c = true
    · have hc : goEsc c = [c] := by simp [goEsc, hlo, hsafe]
      have hcond := hsafe
      simp only [htmlSafe, Bool.and_eq_true, Bool.not_eq_true', decide_eq_true_eq,
        decide_eq_false_iff_not] at hcond
      obtain ⟨⟨⟨⟨⟨h20, hdq⟩, hdb⟩, -⟩, -⟩, -⟩ := hcond
      rw [hc]
      simp [strBody, hdq, hdb, show ¬ c.toNat < 0x20 by omega]
    · by_cases hq : c = '"'
      · subst hq; rfl
      · by_cases hb : c = '\\'
        · subst hb; rfl
        · by_cases hn : c = '\n'
          · subst hn; rfl
          · by_cases hr : c = '\r'
            · subst hr; rfl
            · by_cases ht : c = '\t'
              · subst ht; rfl
              · have hc : goEsc c =
                    ['\\', 'u', '0', '0', hexLower (c.toNat / 16), hexLower (c.toNat % 16)] := by
                  simp [goEsc, hlo, hsafe, hq, hb, hn, hr, ht]
                rw [hc]
                have hhq : hexQuad '0' '0' (hexLower (c.toNat / 16)) (hexLower (c.toNat % 16)) =
                    some c.toNat := by
                  have e0 : hexNib '0' = some 0 := by decide
                  have e1 := hexNib_hexLower (c.toNat / 16)
                    (Nat.div_lt_of_lt_mul (show c.toNat < 16 * 16 by omega))
                  have e2 := hexNib_hexLower (c.toNat % 16) (Nat.mod_lt _ (by omega))
                  simp [hexQuad, e0, e1, e2]
                  omega
                have hs1 : ¬ (0xD800 ≤ c.toNat ∧ c.toNat < 0xDC00) := by omega
                have hs2 : ¬ (0xDC00 ≤ c.toNat ∧ c.toNat < 0xE000) := by omega
                simp only [List.cons_append, List.nil_append]
                rw [strBody_u_plain f '0' '0' (hexLower (c.toNat / 16)) (hexLower (c.toNat % 16))
                  rest c.toNat hhq hs1 hs2, Char.ofNat_toNat]
  · by_cases h28 : c.toNat = 0x2028
    · have hc : goEsc c = ['\\', 'u', '2', '0', '2', '8'] := by simp [goEsc, hlo, h28]
      have hcv : c = Char.ofNat 0x2028 := by
        rw [← h28, Char.ofNat_toNat]
      rw [hc, hcv]
      rfl
    · by_cases h29 : c.toNat = 0x2029
      · have hc : goEsc c = ['\\', 'u', '2', '0', '2', '9'] := by simp [goEsc, hlo, h28, h29]
        have hcv : c = Char.ofNat 0x2029 := by
          rw [← h29, Char.ofNat_toNat]
        rw [hc, hcv]
        rfl
      · have hc : goEsc c = [c] := by simp [goEsc, hlo, h28, h29]
        obtain ⟨f1, f2, f3⟩ := char_hi_facts (c := c) (by omega)
        rw [hc]
        simp [strBody, f1, f2, f3]

/-- Escaping never shortens a string: each rune emits at least one rune. -/
theorem length_le_flatMap_goEsc (cs : List Char) :
    cs.length ≤ (cs.flatMap goEsc).length := by
  induction cs with
  | nil => simp
  | cons c cs ih =>
    have hpos : 1 ≤ (goEsc c).length := by
      unfold goEsc
      repeat' split
      all_goals simp
    simp only [List.flatMap_cons, List.length_cons, List.length_append]
    omega

/-- Reading a whole escaped body up to the closing quote recovers the
    original runes; one fuel unit is spent per decoded rune. -/
theorem strBody_flatMap (cs : List Char) :
    ∀ (f : Nat) (rest : List Char), cs.length < f →
      strBody f (cs.flatMap goEsc ++ '"' :: rest) = some (cs, rest) := by
  induction cs with
  | nil =>
    intro f rest hf
    match f, hf with
    | f + 1, _ => simp [strBody]
  | cons c cs ih =>
    intro f rest hf
    match f, hf with
    | f + 1, hf =>
      rw [List.flatMap_cons, List.append_assoc, strBody_esc,
        ih f rest (by simpa using Nat.lt_of_succ_lt_succ hf)]
      rfl

/-- The parser's string branch inverts `marshalStr`. -/
theorem parseVal_marshalStr (f : Nat) (s : String) (rest : List Char) :
    parseVal (f + 1) (marshalStr s ++ rest) = some (.jstr s, rest) := by
  have harg : marshalStr s ++ rest = '"' :: (s.data.flatMap goEsc ++ '"' :: rest) := by
    simp [marshalStr]
  rw [harg]
  have hskip : jsSkip ('"' :: (s.data.flatMap goEsc ++ '"' :: rest)) =
      '"' :: (s.data.flatMap goEsc ++ '"' :: rest) := by
    simp [jsSkip, List.dropWhile_cons, jsWS]
  have hlen : s.data.length < (s.data.flatMap goEsc ++ '"' :: rest).length + 1 := by
    have := length_le_flatMap_goEsc s.data
    simp only [List.length_append, List.length_cons]
    omega
  simp only [parseVal, hskip, strBody_flatMap s.data _ rest hlen, Option.map_some]
  cases s
  rfl

/-- Skipping whitespace is the identity on input led by a non-whitespace rune. -/
theorem jsSkip_cons_not {c : Char} (h : jsWS c = false) (cs : List Char) :
    jsSkip (c :: cs) = c :: cs := by
  simp [jsSkip, List.dropWhile_cons, h]

/-- A key string parses off the front of a member, whatever follows the
    closing quote. -/
theorem strBody_key (k : String) (tail : List Char) :
    strBody ((k.data.flatMap goEsc ++ '"' :: tail).length + 1)
        (k.data.flatMap goEsc ++ '"' :: tail) = some (k.data, tail) :=
  strBody_flatMap k.data _ tail (by
    have := length_le_flatMap_goEsc k.data
    simp only [List.length_append, List.length_cons]
    omega)

/-- The member loop inverts `memberSeq` on flat string-valued objects,
    spending one fuel unit per member. -/
theorem pMembers_memberSeq : ∀ (kvs : List (String × String)) (f : Nat) (rest : List Char),
    kvs ≠ [] → kvs.length < f →
    pMembers f (memberSeq kvs ++ '\x7d' :: rest) =
      some (kvs.map (fun kv => (kv.1, JValue.jstr kv.2)), rest) := by
  intro kvs
  induction kvs with
  | nil => intro f rest hne _; exact absurd rfl hne
  | cons kv kvs ih =>
    intro f rest _ hf
    obtain ⟨k, v⟩ := kv
    match f, hf with
    | f + 1, hf =>
      cases kvs with
      | nil =>
        have harg : memberSeq [(k, v)] ++ '\x7d' :: rest =
            '"' :: (k.data.flatMap goEsc ++ '"' :: (':' :: (marshalStr v ++ '\x7d' :: rest))) := by
          simp [memberSeq, marshalMember, marshalStr]
        rw [harg]
        simp only [pMembers, jsSkip_cons_not (by decide : jsWS '"' = false),
          strBody_key k (':' :: (marshalStr v ++ '\x7d' :: rest)), Option.bind_eq_bind,
          Option.some_bind, jsSkip_cons_not (by decide : jsWS ':' = false)]
        match f, hf with
        | f + 1, _ =>
          rw [parseVal_marshalStr f v ('\x7d' :: rest)]
          simp only [Option.some_bind, jsSkip_cons_not (by decide : jsWS '\x7d' = false)]
          cases k
          rfl
      | cons kv2 kvs' =>
        have harg : memberSeq ((k, v) :: kv2 :: kvs') ++ '\x7d' :: rest =
            '"' :: (k.data.flatMap goEsc ++ '"' ::
              (':' :: (marshalStr v ++ ',' :: (memberSeq (kv2 :: kvs') ++ '\x7d' :: rest)))) := by
          simp [memberSeq, marshalMember, marshalStr]
        rw [harg]
        simp only [pMembers, jsSkip_cons_not (by decide : jsWS '"' = false),
          strBody_key k (':' :: (marshalStr v ++ ',' :: (memberSeq (kv2 :: kvs') ++ '\x7d' :: rest))),
          Option.bind_eq_bind, Option.some_bind,
          jsSkip_cons_not (by decide : jsWS ':' = false)]
        match f, hf with
        | f + 1, hf =>
          rw [parseVal_marshalStr f v (',' :: (memberSeq (kv2 :: kvs') ++ '\x7d' :: rest))]
          simp only [Option.some_bind, jsSkip_cons_not (by decide : jsWS ',' = false)]
          rw [ih (f + 1) rest (by simp) (by simpa using Nat.lt_of_succ_lt_succ hf)]
          cases k
          rfl

/-- An item's member list is never empty and holds at most three members. -/
theorem itemMembers_length (it : TranslationItem) :
    itemMembers it ≠ [] ∧ (itemMembers it).length ≤ 3 := by
  unfold itemMembers
  split <;> simp

/-- A non-empty member sequence begins with the opening quote of its first
    key. -/
theorem memberSeq_head (k v : String) (kvs : List (String × String)) :
    ∃ t, memberSeq ((k, v) :: kvs) = '"' :: t := by
  cases kvs with
  | nil =>
    exact ⟨k.data.flatMap goEsc ++ ('"' :: (':' :: marshalStr v)),
      by simp [memberSeq, marshalMember, marshalStr]⟩
  | cons kv2 kvs' =>
    exact ⟨k.data.flatMap goEsc ++ ('"' :: (':' :: (marshalStr v ++
        ',' :: memberSeq (kv2 :: kvs')))),
      by simp [memberSeq, marshalMember, marshalStr]⟩

/-- The parser inverts `marshalItem`, with a constant fuel bound. -/
theorem parseVal_marshalItem (f : Nat) (it : TranslationItem) (rest : List Char)
    (hf : 4 ≤ f) :
    parseVal (f + 1) (marshalItem it ++ rest) = some (jItemVal it, rest) := by
  have hne := (itemMembers_length it).1
  have hlen := (itemMembers_length it).2
  obtain ⟨kv0, kvs, hms⟩ : ∃ kv0 kvs, itemMembers it = kv0 :: kvs := by
    cases h : itemMembers it with
    | nil => exact absurd h hne
    | cons a l => exact ⟨a, l, rfl⟩
  obtain ⟨k, v⟩ := kv0
  obtain ⟨t0, ht0⟩ := memberSeq_head k v kvs
  have hms2 : memberSeq (itemMembers it) ++ '\x7d' :: rest = '"' :: (t0 ++ '\x7d' :: rest) := by
    rw [hms, ht0]
    rfl
  have harg : marshalItem it ++ rest =
      '\x7b' :: (memberSeq (itemMembers it) ++ '\x7d' :: rest) := by
    simp [marshalItem, marshalObj]
  rw [harg]
  simp only [parseVal, jsSkip_cons_not (by decide : jsWS '\x7b' = false)]
  rw [hms2, jsSkip_cons_not (by decide : jsWS '"' = false)]
  show Option.map (fun pr => (JValue.jobj pr.1, pr.2))
      (pMembers f ('"' :: (t0 ++ '\x7d' :: rest))) = some (jItemVal it, rest)
  rw [← hms2, pMembers_memberSeq (itemMembers it) f rest hne (by omega)]
  simp [jItemVal]

/-- A marshalled item is never the empty rune list. -/
theorem marshalItem_ne_nil (it : TranslationItem) : marshalItem it ≠ [] := by
  simp [marshalItem, marshalObj]

/-- A marshalled item sequence is at least as long as the item list. -/
theorem length_le_itemSeq : ∀ items : List TranslationItem,
    items.length ≤ (itemSeq items).length
  | [] => by simp [itemSeq]
  | [it] => by
    have hd : 0 < (marshalItem it).length := List.length_pos.mpr (marshalItem_ne_nil it)
    simp only [itemSeq, List.length_singleton]
    omega
  | it :: it2 :: its => by
    have ih := length_le_itemSeq (it2 :: its)
    have hd : 0 < (marshalItem it).length := List.length_pos.mpr (marshalItem_ne_nil it)
    simp only [itemSeq, List.length_cons, List.length_append] at ih ⊢
    omega

/-- The element loop inverts `itemSeq`, spending one fuel unit per item on
    its own recursion plus the item bound. -/
theorem pElems_itemSeq : ∀ (items : List TranslationItem) (f : Nat) (rest : List Char),
    items ≠ [] → items.length + 5 ≤ f →
    pElems f (itemSeq items ++ ']' :: rest) = some (items.map jItemVal, rest) := by
  intro items
  induction items with
  | nil => intro f rest hne _; exact absurd rfl hne
  | cons it its ih =>
    intro f rest _ hf
    match f, hf with
    | f + 1, hf1 =>
      cases its with
      | nil =>
        have harg : itemSeq [it] ++ ']' :: rest = marshalItem it ++ ']' :: rest := by
          simp [itemSeq]
        rw [harg]
        simp only [pElems, Option.bind_eq_bind]
        match f, hf1 with
        | f + 1, hf2 =>
          rw [parseVal_marshalItem f it (']' :: rest) (by simp at hf2; omega)]
          simp only [Option.some_bind, jsSkip_cons_not (by decide : jsWS ']' = false)]
          rfl
      | cons it2 its' =>
        have harg : itemSeq (it :: it2 :: its') ++ ']' :: rest =
            marshalItem it ++ ',' :: (itemSeq (it2 :: its') ++ ']' :: rest) := by
          simp [itemSeq]
        rw [harg]
        simp only [pElems, Option.bind_eq_bind]
        match f, hf1 with
        | f + 1, hf2 =>
          rw [parseVal_marshalItem f it (',' :: (itemSeq (it2 :: its') ++ ']' :: rest))
            (by simp at hf2; omega)]
          simp only [Option.some_bind, jsSkip_cons_not (by decide : jsWS ',' = false)]
          rw [ih (f + 1) rest (by simp) (by simp at hf2 ⊢; omega)]
          rfl

/-- The object branch of the parser, when the body starts with a key. -/
theorem parseVal_obj_step (f : Nat) (t : List Char) :
    parseVal (f + 1) ('\x7b' :: ('"' :: t)) =
      (pMembers f ('"' :: t)).map (fun pr => (JValue.jobj pr.1, pr.2)) := by
  show (match jsSkip ('"' :: t) with
    | '\x7d' :: r2 => some (JValue.jobj [], r2)
    | r2 => (pMembers f r2).map (fun pr => (JValue.jobj pr.1, pr.2))) =
      (pMembers f ('"' :: t)).map (fun pr => (JValue.jobj pr.1, pr.2))
  rw [jsSkip_cons_not (by decide : jsWS '"' = false)]
  rfl

/-- The array branch of the parser, when the first element is an object. -/
theorem parseVal_arr_step (f : Nat) (t : List Char) :
    parseVal (f + 1) ('[' :: ('\x7b' :: t)) =
      (pElems f ('\x7b' :: t)).map (fun pr => (JValue.jarr pr.1, pr.2)) := by
  show (match jsSkip ('\x7b' :: t) with
    | ']' :: r2 => some (JValue.jarr [], r2)
    | r2 => (pElems f r2).map (fun pr => (JValue.jarr pr.1, pr.2))) =
      (pElems f ('\x7b' :: t)).map (fun pr => (JValue.jarr pr.1, pr.2))
  rw [jsSkip_cons_not (by decide : jsWS '\x7b' = false)]
  rfl

/-- The array branch of the parser at an immediately closed array. -/
theorem parseVal_arr_empty (f : Nat) (r : List Char) :
    parseVal (f + 1) ('[' :: (']' :: r)) = some (.jarr [], r) := by
  show (match jsSkip (']' :: r) with
    | ']' :: r2 => some (JValue.jarr [], r2)
    | r2 => (pElems f r2).map (fun pr => (JValue.jarr pr.1, pr.2))) = some (JValue.jarr [], r)
  rw [jsSkip_cons_not (by decide : jsWS ']' = false)]
  rfl

/-- A non-empty marshalled item sequence begins with an opening brace. -/
theorem itemSeq_head (it : TranslationItem) (its : List TranslationItem) :
    ∃ t, itemSeq (it :: its) = '\x7b' :: t := by
  cases its with
  | nil =>
    exact ⟨memberSeq (itemMembers it) ++ ['\x7d'], by simp [itemSeq, marshalItem, marshalObj]⟩
  | cons it2 its' =>
    exact ⟨(memberSeq (itemMembers it) ++ ['\x7d']) ++ ',' :: itemSeq (it2 :: its'),
      by simp [itemSeq, marshalItem, marshalObj]⟩

/-- The function `serializeResponse` is `respChars`, packed as a string. -/
theorem serializeResponse_data (items : List TranslationItem) :
    (serializeResponse items).data = respChars items := rfl

/-- The parser inverts the whole marshalled result document. -/
theorem parseVal_resp (f : Nat) (items : List TranslationItem) (rest : List Char)
    (hf : items.length + 8 ≤ f) :
    parseVal (f + 1) (respChars items ++ rest) = some (jRespVal items, rest) := by
  have harg : respChars items ++ rest =
      '\x7b' :: ('"' :: (tagResults.data.flatMap goEsc ++ '"' ::
        (':' :: ('[' :: (itemSeq items ++ (']' :: ('\x7d' :: rest))))))) := by
    simp [respChars, marshalStr]
  rw [harg, parseVal_obj_step]
  match f, hf with
  | g + 1, hf =>
    simp only [pMembers, jsSkip_cons_not (by decide : jsWS '"' = false), Option.bind_eq_bind]
    rw [strBody_key tagResults (':' :: ('[' :: (itemSeq items ++ (']' :: ('\x7d' :: rest)))))]
    simp only [Option.some_bind, jsSkip_cons_not (by decide : jsWS ':' = false)]
    match g, hf with
    | h + 1, hf =>
      cases items with
      | nil =>
        rw [show itemSeq [] ++ (']' :: ('\x7d' :: rest)) = ']' :: ('\x7d' :: rest) from rfl]
        rw [parseVal_arr_empty h ('\x7d' :: rest)]
        simp only [Option.some_bind, jsSkip_cons_not (by decide : jsWS '\x7d' = false)]
        rfl
      | cons it its =>
        obtain ⟨t1, ht1⟩ := itemSeq_head it its
        have harr : itemSeq (it :: its) ++ (']' :: ('\x7d' :: rest)) =
            '\x7b' :: (t1 ++ (']' :: ('\x7d' :: rest))) := by
          rw [ht1]
          rfl
        rw [harr, parseVal_arr_step]
        rw [show '\x7b' :: (t1 ++ (']' :: ('\x7d' :: rest))) =
            itemSeq (it :: its) ++ ']' :: ('\x7d' :: rest) from by rw [ht1]; rfl]
        rw [pElems_itemSeq (it :: its) h ('\x7d' :: rest) (List.cons_ne_nil it its) (by omega)]
        simp [jsSkip_cons_not (by decide : jsWS '\x7d' = false), jRespVal]

/-- Parsing the re-serialized document succeeds: the document's length
    covers the parser's fuel needs. -/
theorem parseTop_serializeResponse (items : List TranslationItem) :
    parseTop (serializeResponse items) = some (jRespVal items) := by
  unfold parseTop
  rw [serializeResponse_data]
  have hm : (marshalStr tagResults).length = 9 := by decide
  have h1 := length_le_itemSeq items
  have hlen : items.length + 8 ≤ (respChars items).length := by
    simp only [respChars, List.length_cons, List.length_append, hm]
    simp only [List.length_cons, List.length_nil]
    omega
  have hp := parseVal_resp (respChars items).length items [] hlen
  rw [List.append_nil] at hp
  rw [hp]
  rfl

/-- Go's `foldName` fixes the lowercase ASCII tags. -/
theorem goFoldName_tags :
    goFoldName tagId = tagId ∧ goFoldName tagText = tagText
    ∧ goFoldName tagTranslation = tagTranslation ∧ goFoldName tagResults = tagResults := by
  refine ⟨?_, ?_, ?_, ?_⟩ <;> decide

/-- Decoding a marshalled item recovers it: the two or three members
    assign the fields back in struct order. -/
theorem decodeItem_jItemVal (it : TranslationItem) : decodeItem (jItemVal it) = some it := by
  obtain ⟨e1, e2, e3, -⟩ := goFoldName_tags
  have n1 : ¬ tagText = tagId := by decide
  have n2 : ¬ tagTranslation = tagId := by decide
  have n3 : ¬ tagTranslation = tagText := by decide
  obtain ⟨a, b, t⟩ := it
  by_cases ht : t = ""
  · subst ht
    simp [decodeItem, jItemVal, itemMembers, setItemField, e1, e2, e3, n1, n2, n3, List.foldlM]
  · simp [decodeItem, jItemVal, itemMembers, setItemField, ht,
      e1, e2, e3, n1, n2, n3, List.foldlM]

/-- Decoding the marshalled item array recovers the item list. -/
theorem decodeItems_map (items : List TranslationItem) :
    decodeItems (.jarr (items.map jItemVal)) = some items := by
  induction items with
  | nil => rfl
  | cons it its ih =>
    simp only [decodeItems] at ih ⊢
    simp [List.map_cons, decodeItemList, decodeItem_jItemVal, ih]

/-- Decoding the whole marshalled document recovers the item list. -/
theorem decodeGemini_jRespVal (items : List TranslationItem) :
    decodeGemini (jRespVal items) = some items := by
  obtain ⟨-, -, -, e4⟩ := goFoldName_tags
  simp [decodeGemini, jRespVal, List.foldlM, e4, decodeItems_map]

/-- Sanitizing a brace-wrapped document changes nothing: no surrounding
    whitespace, no fence, and the brace slice spans the whole text. -/
theorem sanitizeChars_braced (mid : List Char) :
    sanitizeChars ('\x7b' :: (mid ++ ['\x7d'])) = '\x7b' :: (mid ++ ['\x7d']) := by
  have htrim : trimChars ('\x7b' :: (mid ++ ['\x7d'])) = '\x7b' :: (mid ++ ['\x7d']) := by
    rw [trimChars_eq]
    rw [List.dropWhile_cons]
    rw [if_neg (by decide : ¬ goIsSpace '\x7b' = true)]
    rw [show ('\x7b' :: (mid ++ ['\x7d'])) = ('\x7b' :: mid) ++ ['\x7d'] from by simp]
    exact List.rdropWhile_concat_neg _ _ _ (by decide)
  have hb : (bq == '\x7b') = false := by decide
  have hpre : fenceMark.isPrefixOf ('\x7b' :: (mid ++ ['\x7d'])) = false := by
    simp [fenceMark, List.isPrefixOf, hb]
  have hfirst : firstIdx '\x7b' ('\x7b' :: (mid ++ ['\x7d'])) = some 0 := by
    simp [firstIdx]
  have hrev : ('\x7b' :: (mid ++ ['\x7d'])).reverse = '\x7d' :: (mid.reverse ++ ['\x7b']) := by
    simp
  have hlast : lastIdx '\x7d' ('\x7b' :: (mid ++ ['\x7d'])) = some (mid.length + 1) := by
    unfold lastIdx
    rw [hrev]
    simp [firstIdx]
  unfold sanitizeChars
  rw [htrim]
  simp only [hpre, Bool.false_eq_true, if_false, hfirst, hlast]
  rw [if_pos (by omega : 0 < mid.length + 1)]
  simp only [List.drop_zero]
  rw [show mid.length + 1 + 1 - 0 = ('\x7b' :: (mid ++ ['\x7d'])).length from by simp]
  exact List.take_length _

/-- Sanitizing the re-serialized document changes nothing. -/
theorem sanitizeJSON_serialize (items : List TranslationItem) :
    sanitizeJSON (serializeResponse items) = serializeResponse items := by
  unfold sanitizeJSON
  rw [serializeResponse_data]
  have hshape : respChars items =
      '\x7b' :: ((marshalStr tagResults ++ ':' :: '[' :: (itemSeq items ++ [']'])) ++ ['\x7d']) := by
    simp [respChars]
  rw [hshape, sanitizeChars_braced, ← hshape]
  rfl

/-- Unmarshalling inverts serialization. -/
theorem unmarshalGemini_serialize (items : List TranslationItem) :
    unmarshalGemini (serializeResponse items) = some items := by
  unfold unmarshalGemini
  rw [parseTop_serializeResponse]
  simpa using decodeGemini_jRespVal items

/-- C8.  Extraction is idempotent: whenever extraction succeeds, re-
    extracting the JSON serialization of its own result set (the items
    re-serialized as a `\x7b"results": [...]\x7d` document with the struct's
    json tags) succeeds and returns an equal result set. -/
theorem extractTranslations_idempotent (raw : String) (items : List TranslationItem)
    (_h : extractTranslations raw = .ok items) :
    extractTranslations (serializeResponse items) = .ok items := by
  unfold extractTranslations
  rw [sanitizeJSON_serialize, unmarshalGemini_serialize]

/-- Witness for C8: the empty-results document extracts successfully, and
    its re-serialization extracts to the same (empty) result set. -/
theorem extractTranslations_idempotent_witness :
    extractTranslations (serializeResponse []) = .ok [] :=
  extractTranslations_idempotent emptyResultsDoc [] rfl
